import Mathlib

/-!
Shallow embedding of the go-gcp-metrics aggregation core.

Conventions of the embedding:
* Go `map[string]string` is modelled by its lookup function `String → Option String`
  (`GoMap`); Go map iteration order is unspecified, so only lookups are observable.
* Pointer identity is modelled by an allocation list: a `LabelRegistry` holds its
  instances in `instances : List T` and an instance is named by its allocation
  index, so "the same instance (pointer identity)" is "the same index".
* `float64` fields (`Mean`, `SumOfSquaredDeviation`) are modelled as exact
  rationals (`ℚ`); round-off of IEEE-754 arithmetic is outside the embedding.
* `int64` counter arithmetic wraps modulo 2^64 (`wrap64`), as Go's
  `atomic.AddInt64` does.
* Stateful methods become state-passing functions; the background scheduler
  goroutine becomes a function from the sequence of `select` outcomes
  (tick / context-cancellation events) to the sequence of visible actions.
-/

namespace GcpMetrics

/-- Go `map[string]string`, modelled by its lookup function. -/
def GoMap : Type := String → Option String

/-- The empty Go map (`make(map[string]string)`). -/
def GoMap.empty : GoMap := fun _ => none

/-- Go map assignment `m[k] = v`. -/
def GoMap.insert (m : GoMap) (k v : String) : GoMap :=
  fun x => if x = k then some v else m x

/-- `maps.Copy(dst, src)`: every key of `src` overwrites `dst`. -/
def GoMap.copyFrom (dst src : GoMap) : GoMap :=
  fun x =>
    match src x with
    | some v => some v
    | none => dst x

/-- `labelValuesToMap` from `label_registry.go`: iterate the keys with their
index; a key at index `i` is bound to `values[i]` only when `i < len(values)`;
extra values are ignored, keys past the value count are left unset. -/
def labelValuesToMap (keys values : List String) : GoMap :=
  (keys.enum).foldl
    (fun result p =>
      if p.1 < values.length then result.insert p.2 (values.getD p.1 "") else result)
    GoMap.empty

/-- `labelValuesKey` from `label_registry.go`: join the values with a null byte. -/
def labelValuesKey (values : List String) : String :=
  String.intercalate "\x00" values

/-- Lookup of a key in the registry's entry list (the observable content of the
`sync.Map`, keyed by `labelValuesKey`). -/
def findEntry (key : String) : List (String × Nat) → Option Nat
  | [] => none
  | e :: rest => if e.1 = key then some e.2 else findEntry key rest

/-- `LabelRegistry[T]` from `label_registry.go`.  `entries` is the observable
content of the `sync.Map`, mapping a joined-values key to the allocation index
of the retained instance; `instances` is the allocation list giving each index
its current instance state. -/
structure LabelRegistry (T : Type) where
  labelKeys : List String
  entries : List (String × Nat)
  instances : List T
  factory : List String → T

/-- `newLabelRegistry`: empty registry with the given keys and factory. -/
def newLabelRegistry (T : Type) (labelKeys : List String)
    (factory : List String → T) : LabelRegistry T :=
  { labelKeys := labelKeys, entries := [], instances := [], factory := factory }

/-- `LabelRegistry.Get`: compute the key; on a hit return the installed
instance (by identity) unchanged; on a miss run the factory and install its
result under a fresh allocation index (`LoadOrStore`: the first store wins). -/
def LabelRegistry.Get {T : Type} (lr : LabelRegistry T) (labelValues : List String) :
    Nat × LabelRegistry T :=
  match findEntry (labelValuesKey labelValues) lr.entries with
  | some id => (id, lr)
  | none =>
    (lr.instances.length,
      { lr with
        entries := lr.entries ++ [(labelValuesKey labelValues, lr.instances.length)],
        instances := lr.instances ++ [lr.factory labelValues] })

/-- A sequence of `Get` calls, keeping only the final registry state. -/
def LabelRegistry.getMany {T : Type} (lr : LabelRegistry T) :
    List (List String) → LabelRegistry T
  | [] => lr
  | vs :: rest => ((lr.Get vs).2).getMany rest

/-- In-place update of the instance at one allocation index (a caller mutating
the instance `Get` handed back). -/
def listModify {T : Type} (f : T → T) : Nat → List T → List T
  | _, [] => []
  | 0, x :: rest => f x :: rest
  | n + 1, x :: rest => x :: listModify f n rest

/-- A caller's read-modify-write through the registry: resolve the instance for
the label values with `Get`, then mutate that instance in place. -/
def LabelRegistry.update {T : Type} (lr : LabelRegistry T) (labelValues : List String)
    (f : T → T) : LabelRegistry T :=
  let r := lr.Get labelValues
  { r.2 with instances := listModify f r.1 r.2.instances }

/-- How many entries the registry holds for one key. -/
def countKey (key : String) (l : List (String × Nat)) : Nat :=
  (l.filter (fun e => e.1 = key)).length

/-! ## Counters and gauges -/

/-- Go `int64` wraparound: reduce an unbounded integer into `[-2^63, 2^63)`. -/
def wrap64 (x : Int) : Int := (x + 2 ^ 63) % 2 ^ 64 - 2 ^ 63

/-- `Counter` from the stable variant in the source: name, labels and an
`int64` accumulator mutated with `atomic.AddInt64`. -/
structure Counter where
  Name : String
  Labels : GoMap
  value : Int

/-- `NewCounter`: the accumulator starts at the zero value. -/
def NewCounter (name : String) (labels : GoMap) : Counter :=
  { Name := name, Labels := labels, value := 0 }

/-- `Counter.Inc`: `atomic.AddInt64(&c.value, 1)`. -/
def Counter.Inc (c : Counter) : Counter :=
  { c with value := wrap64 (c.value + 1) }

/-- `Counter.Add`: `atomic.AddInt64(&c.value, n)`. -/
def Counter.Add (c : Counter) (n : Int) : Counter :=
  { c with value := wrap64 (c.value + n) }

/-- `Counter.Value`: atomic read of the accumulator. -/
def Counter.Value (c : Counter) : Int := c.value

/-- One call in a sequence of counter mutations. -/
inductive CounterOp where
  | inc : CounterOp
  | add (n : Int) : CounterOp
deriving DecidableEq

/-- The delta one call contributes: 1 for `Inc`, `n` for `Add(n)`. -/
def CounterOp.delta : CounterOp → Int
  | CounterOp.inc => 1
  | CounterOp.add n => n

/-- Apply a sequence of `Inc`/`Add` calls (atomic ops are linearizable, so any
concurrent execution is observationally one such sequence). -/
def Counter.applyOps (c : Counter) (ops : List CounterOp) : Counter :=
  ops.foldl
    (fun c op =>
      match op with
      | CounterOp.inc => c.Inc
      | CounterOp.add n => c.Add n)
    c

/-- `StaticCounter`: same accumulator as `Counter`, labels fixed at creation. -/
structure StaticCounter where
  Name : String
  Labels : GoMap
  value : Int

/-- `NewStaticCounter` from the source. -/
def NewStaticCounter (name : String) (labels : GoMap) : StaticCounter :=
  { Name := name, Labels := labels, value := 0 }

/-- `StaticCounter.Inc`. -/
def StaticCounter.Inc (c : StaticCounter) : StaticCounter :=
  { c with value := wrap64 (c.value + 1) }

/-- `StaticGauge` from `gauge.go`: last-write-wins `int64` cell. -/
structure StaticGauge where
  Name : String
  Labels : GoMap
  value : Int

/-- `NewStaticGauge` from `gauge.go`. -/
def NewStaticGauge (name : String) (labels : GoMap) : StaticGauge :=
  { Name := name, Labels := labels, value := 0 }

/-- `StaticGauge.Set`: `atomic.StoreInt64`. -/
def StaticGauge.Set (g : StaticGauge) (n : Int) : StaticGauge :=
  { g with value := n }

/-! ## Distributions -/

/-- `DistributionBuckets` from `distribution.go`; the two `float64` fields are
modelled as exact rationals. -/
structure DistributionBuckets where
  Buckets : List Int
  NumSamples : Int
  Mean : ℚ
  SumOfSquaredDeviation : ℚ
deriving DecidableEq

/-- `StaticDistribution` from `distribution.go` (the mutex only serializes the
methods; in the sequential embedding it has no content). -/
structure StaticDistribution where
  Name : String
  Unit : String
  Offset : Int
  Step : Int
  NumBuckets : Int
  Labels : GoMap
  value : DistributionBuckets

/-- `NewStaticDistribution`: `numBuckets + 2` zeroed buckets (underflow at 0,
overflow at the end), offset 0, all running moments zero. -/
def NewStaticDistribution (name unit : String) (step numBuckets : Int)
    (labels : GoMap) : StaticDistribution :=
  { Name := name
    Unit := unit
    Offset := 0
    Step := step
    NumBuckets := numBuckets
    Labels := labels
    value :=
      { Buckets := List.replicate (numBuckets + 2).toNat 0
        NumSamples := 0
        Mean := 0
        SumOfSquaredDeviation := 0 } }

/-- `bucketForValue` from `distribution.go`:
`min(max(0, (value-d.Offset+d.Step)/d.Step), int64(d.NumBuckets+1))`.
The subtraction and the addition are Go `int64` operations and wrap on
overflow (`wrap64`); the division is Go's truncating integer division
(`Int.tdiv`).  `min`/`max` of `int64` values cannot overflow. -/
def StaticDistribution.bucketForValue (d : StaticDistribution) (value : Int) : Int :=
  min (max 0 ((wrap64 (wrap64 (value - d.Offset) + d.Step)).tdiv d.Step)) (d.NumBuckets + 1)

/-- `StaticDistribution.Update`: increment the bucket for the value, then
apply Welford's update to `NumSamples`, `Mean` and `SumOfSquaredDeviation`. -/
def StaticDistribution.Update (d : StaticDistribution) (value : Int) : StaticDistribution :=
  let bucket := d.bucketForValue value
  let buckets := d.value.Buckets.set bucket.toNat (d.value.Buckets.getD bucket.toNat 0 + 1)
  let numSamples := d.value.NumSamples + 1
  let delta := (value : ℚ) - d.value.Mean
  let mean := d.value.Mean + delta / (numSamples : ℚ)
  let ssd := d.value.SumOfSquaredDeviation + delta * ((value : ℚ) - mean)
  { d with
    value :=
      { Buckets := buckets
        NumSamples := numSamples
        Mean := mean
        SumOfSquaredDeviation := ssd } }

/-- `StaticDistribution.GetAndClear`: return a copy of the accumulated state
and zero all four fields in place (`clear` keeps the bucket slice length). -/
def StaticDistribution.GetAndClear (d : StaticDistribution) :
    DistributionBuckets × StaticDistribution :=
  (d.value,
    { d with
      value :=
        { Buckets := List.replicate d.value.Buckets.length 0
          NumSamples := 0
          Mean := 0
          SumOfSquaredDeviation := 0 } })

/-! ## Dynamic facades -/

/-- The merged label map every dynamic facade's factory builds: copy the static
labels into a fresh map, then copy the dynamic key-to-value mapping over it. -/
def mergedFactoryLabels (staticLabels : GoMap) (labelKeys vals : List String) : GoMap :=
  (GoMap.empty.copyFrom staticLabels).copyFrom (labelValuesToMap labelKeys vals)

/-- `DynamicCounter` from `dynamic_counter.go`. -/
structure DynamicCounter where
  Name : String
  staticLabels : GoMap
  labelKeys : List String
  registry : LabelRegistry StaticCounter

/-- `NewDynamicCounter`: registry whose factory merges the static labels with
the dynamic label values and builds a `StaticCounter` (a `nil` static-label map
is replaced by an empty one; `GoMap` is already total, so that case is the
empty lookup function). -/
def NewDynamicCounter (name : String) (staticLabels : GoMap)
    (labelKeys : List String) : DynamicCounter :=
  { Name := name
    staticLabels := staticLabels
    labelKeys := labelKeys
    registry :=
      newLabelRegistry StaticCounter labelKeys
        (fun vals => NewStaticCounter name (mergedFactoryLabels staticLabels labelKeys vals)) }

/-- `DynamicCounter.Inc`: resolve the backing instance via `Get`, mutate it. -/
def DynamicCounter.Inc (dc : DynamicCounter) (labelValues : List String) : DynamicCounter :=
  { dc with registry := dc.registry.update labelValues StaticCounter.Inc }

/-- `DynamicGauge` from `dynamic_gauge.go`. -/
structure DynamicGauge where
  Name : String
  staticLabels : GoMap
  labelKeys : List String
  registry : LabelRegistry StaticGauge

/-- `NewDynamicGauge`: same factory shape as `NewDynamicCounter`, producing a
`StaticGauge`. -/
def NewDynamicGauge (name : String) (staticLabels : GoMap)
    (labelKeys : List String) : DynamicGauge :=
  { Name := name
    staticLabels := staticLabels
    labelKeys := labelKeys
    registry :=
      newLabelRegistry StaticGauge labelKeys
        (fun vals => NewStaticGauge name (mergedFactoryLabels staticLabels labelKeys vals)) }

/-- `DynamicDistribution` from the source. -/
structure DynamicDistribution where
  Name : String
  Unit : String
  Step : Int
  NumBuckets : Int
  staticLabels : GoMap
  labelKeys : List String
  registry : LabelRegistry StaticDistribution

/-- `NewDynamicDistribution`: same factory shape, producing a
`StaticDistribution` with the merged labels. -/
def NewDynamicDistribution (name unit : String) (step numBuckets : Int)
    (staticLabels : GoMap) (labelKeys : List String) : DynamicDistribution :=
  { Name := name
    Unit := unit
    Step := step
    NumBuckets := numBuckets
    staticLabels := staticLabels
    labelKeys := labelKeys
    registry :=
      newLabelRegistry StaticDistribution labelKeys
        (fun vals =>
          NewStaticDistribution name unit step numBuckets
            (mergedFactoryLabels staticLabels labelKeys vals)) }

/-! ## Emission scheduler -/

/-- One outcome of the scheduler goroutine's `select`: a ticker tick or the
context's cancellation. -/
inductive SchedEvent where
  | tick : SchedEvent
  | cancel : SchedEvent
deriving DecidableEq

/-- A visible action of one scheduler run: the invocation of the before-emit
listener registered at a given index, or the exporter call. -/
inductive EmitAction where
  | listener (i : Nat) : EmitAction
  | exporter : EmitAction
deriving DecidableEq

/-- `Metrics.notifyBeforeEmitListeners`: walk the registered listeners in
registration order, invoking each non-nil one (`none` models a nil `func()`,
which the loop skips).  Listeners are named by their registration index. -/
def notifyBeforeEmitListeners (listeners : List (Option Unit)) : List EmitAction :=
  (listeners.enum).foldl
    (fun acc p =>
      match p.2 with
      | some _ => acc ++ [EmitAction.listener p.1]
      | none => acc)
    []

/-- `ScheduleMetricsEmit`'s goroutine, as a function from the sequence of
`select` outcomes to the sequence of visible actions: a tick runs the
before-emit listeners and then the exporter; cancellation stops the ticker and
returns, so nothing later is processed. -/
def schedulerRun (listeners : List (Option Unit)) : List SchedEvent → List EmitAction
  | [] => []
  | SchedEvent.tick :: rest =>
    notifyBeforeEmitListeners listeners ++ EmitAction.exporter :: schedulerRun listeners rest
  | SchedEvent.cancel :: _ => []

/-! ## Helper lemmas -/

theorem wrap64_fixed {a : Int} (h1 : -2 ^ 63 ≤ a) (h2 : a < 2 ^ 63) : wrap64 a = a := by
  unfold wrap64; omega

theorem wrap64_add_left (a b : Int) : wrap64 (wrap64 a + b) = wrap64 (a + b) := by
  unfold wrap64; omega

theorem wrap64_mem (a : Int) : -2 ^ 63 ≤ wrap64 a ∧ wrap64 a < 2 ^ 63 := by
  unfold wrap64; omega

theorem Counter.applyOps_value (c : Counter) (ops : List CounterOp)
    (h1 : -2 ^ 63 ≤ c.value) (h2 : c.value < 2 ^ 63) :
    (c.applyOps ops).value = wrap64 (c.value + (ops.map CounterOp.delta).sum) := by
  induction ops generalizing c with
  | nil => simpa [Counter.applyOps] using (wrap64_fixed h1 h2).symm
  | cons op rest ih =>
    have hstep :
        Counter.applyOps c (op :: rest) =
          Counter.applyOps { c with value := wrap64 (c.value + op.delta) } rest := by
      cases op <;> rfl
    rw [hstep, ih _ (wrap64_mem _).1 (wrap64_mem _).2]
    simp only [wrap64_add_left, List.map_cons, List.sum_cons]
    ring_nf

theorem findEntry_append (key : String) (l : List (String × Nat)) (e : String × Nat) :
    findEntry key (l ++ [e]) =
      match findEntry key l with
      | some id => some id
      | none => if e.1 = key then some e.2 else none := by
  induction l with
  | nil => simp [findEntry]
  | cons hd tl ih =>
    by_cases h : hd.1 = key <;> simp [findEntry, h, ih]

theorem LabelRegistry.Get_hit {T : Type} (lr : LabelRegistry T) (vs : List String)
    (id : Nat) (h : findEntry (labelValuesKey vs) lr.entries = some id) :
    lr.Get vs = (id, lr) := by
  unfold LabelRegistry.Get
  rw [h]

theorem LabelRegistry.Get_preserves_entry {T : Type} (lr : LabelRegistry T)
    (vs : List String) (key : String) (id : Nat)
    (h : findEntry key lr.entries = some id) :
    findEntry key ((lr.Get vs).2).entries = some id := by
  unfold LabelRegistry.Get
  cases hfind : findEntry (labelValuesKey vs) lr.entries with
  | some id2 => simpa [hfind] using h
  | none =>
    simp only [hfind]
    rw [findEntry_append, h]

theorem LabelRegistry.getMany_preserves_entry {T : Type} (lr : LabelRegistry T)
    (ws : List (List String)) (key : String) (id : Nat)
    (h : findEntry key lr.entries = some id) :
    findEntry key (lr.getMany ws).entries = some id := by
  induction ws generalizing lr with
  | nil => simpa [LabelRegistry.getMany] using h
  | cons w rest ih =>
    exact ih _ (lr.Get_preserves_entry w key id h)

theorem countKey_append (key : String) (l : List (String × Nat)) (e : String × Nat) :
    countKey key (l ++ [e]) = countKey key l + (if e.1 = key then 1 else 0) := by
  by_cases h : e.1 = key <;> simp [countKey, List.filter_append, h]

theorem countKey_zero_of_findEntry_none (key : String) (l : List (String × Nat))
    (h : findEntry key l = none) : countKey key l = 0 := by
  induction l with
  | nil => simp [countKey]
  | cons hd tl ih =>
    by_cases hhd : hd.1 = key
    · simp [findEntry, hhd] at h
    · simp only [findEntry, hhd, if_false, if_neg hhd] at h
      simpa [countKey, hhd] using ih h

theorem LabelRegistry.Get_preserves_countKey {T : Type} (lr : LabelRegistry T)
    (vs : List String) (key : String) (id : Nat)
    (h : findEntry key lr.entries = some id) :
    countKey key ((lr.Get vs).2).entries = countKey key lr.entries := by
  unfold LabelRegistry.Get
  cases hfind : findEntry (labelValuesKey vs) lr.entries with
  | some id2 => simp [hfind]
  | none =>
    have hne : labelValuesKey vs ≠ key := by
      intro heq; rw [heq, h] at hfind; cases hfind
    simp [hfind, countKey_append, hne]

theorem LabelRegistry.getMany_preserves_countKey {T : Type} (lr : LabelRegistry T)
    (ws : List (List String)) (key : String) (id : Nat)
    (h : findEntry key lr.entries = some id) :
    countKey key (lr.getMany ws).entries = countKey key lr.entries := by
  induction ws generalizing lr with
  | nil => simp [LabelRegistry.getMany]
  | cons w rest ih =>
    rw [LabelRegistry.getMany]
    rw [ih _ (lr.Get_preserves_entry w key id h)]
    exact lr.Get_preserves_countKey w key id h

theorem LabelRegistry.Get_fresh {T : Type} (lr : LabelRegistry T) (vs : List String)
    (hfresh : findEntry (labelValuesKey vs) lr.entries = none) :
    lr.Get vs =
      (lr.instances.length,
        { lr with
          entries := lr.entries ++ [(labelValuesKey vs, lr.instances.length)],
          instances := lr.instances ++ [lr.factory vs] }) := by
  unfold LabelRegistry.Get
  rw [hfresh]

/-! ## Claim theorems -/

/-- C1: For every LabelRegistry and every fixed label-value sequence, `Get` is
get-or-create with at most one retained instance: the first `Get` for a
never-seen sequence installs the factory's result under a fresh allocation
index; after any further `Get` traffic, a `Get` with the same sequence (same
joined key) returns that same allocation index (pointer identity) without
changing the registry, the registry holds exactly one entry for the sequence,
and a read-modify-write through `Get` mutates exactly that one instance. -/
theorem labelRegistry_get_or_create {T : Type} (lr : LabelRegistry T) (vs : List String)
    (hfresh : findEntry (labelValuesKey vs) lr.entries = none) :
    ((lr.Get vs).2).instances[(lr.Get vs).1]? = some (lr.factory vs) ∧
    countKey (labelValuesKey vs) ((lr.Get vs).2).entries = 1 ∧
    ∀ ws vs2, labelValuesKey vs2 = labelValuesKey vs →
      ((((lr.Get vs).2).getMany ws).Get vs2).1 = (lr.Get vs).1 ∧
      ((((lr.Get vs).2).getMany ws).Get vs2).2 = ((lr.Get vs).2).getMany ws ∧
      countKey (labelValuesKey vs) (((lr.Get vs).2).getMany ws).entries = 1 ∧
      ∀ f : T → T,
        ((((lr.Get vs).2).getMany ws).update vs2 f).instances =
          listModify f (lr.Get vs).1 (((lr.Get vs).2).getMany ws).instances := by
  rw [LabelRegistry.Get_fresh lr vs hfresh]
  have hbind :
      findEntry (labelValuesKey vs)
        (lr.entries ++ [(labelValuesKey vs, lr.instances.length)]) =
        some lr.instances.length := by
    rw [findEntry_append, hfresh]
    simp
  refine ⟨?_, ?_, ?_⟩
  · simp
  · rw [countKey_append, countKey_zero_of_findEntry_none _ _ hfresh]
    simp
  · intro ws vs2 hkey
    have hbind2 :
        findEntry (labelValuesKey vs)
          (LabelRegistry.getMany
            { lr with
              entries := lr.entries ++ [(labelValuesKey vs, lr.instances.length)],
              instances := lr.instances ++ [lr.factory vs] } ws).entries =
          some lr.instances.length :=
      LabelRegistry.getMany_preserves_entry _ ws _ _ hbind
    have hget :=
      LabelRegistry.Get_hit _ vs2 lr.instances.length (by rw [hkey]; exact hbind2)
    refine ⟨by rw [hget], by rw [hget], ?_, ?_⟩
    · rw [LabelRegistry.getMany_preserves_countKey _ ws _ _ hbind]
      rw [countKey_append, countKey_zero_of_findEntry_none _ _ hfresh]
      simp
    · intro f
      unfold LabelRegistry.update
      rw [hget]

/-- C1 witness: on a concrete fresh registry the first `Get` installs
the factory result, and a later `Get` after unrelated traffic returns the
same allocation index. -/
theorem labelRegistry_get_or_create_witness :
    (((newLabelRegistry Nat ["k"] (fun vs => vs.length)).Get ["a"]).2).instances[
        ((newLabelRegistry Nat ["k"] (fun vs => vs.length)).Get ["a"]).1]? = some 1 ∧
    (((((newLabelRegistry Nat ["k"] (fun vs => vs.length)).Get ["a"]).2).getMany
        [["b"], ["c"]]).Get ["a"]).1 =
      ((newLabelRegistry Nat ["k"] (fun vs => vs.length)).Get ["a"]).1 := by
  have h :=
    labelRegistry_get_or_create (newLabelRegistry Nat ["k"] (fun vs => vs.length))
      ["a"] (by decide)
  exact ⟨h.1, (h.2.2 [["b"], ["c"]] ["a"] rfl).1⟩

/-- C7: a sequence of `Inc`/`Add` calls with total delta `D` (each `Inc`
contributes 1, each `Add(n)` contributes `n`, with no sign validation) brings
`Value()` from the pre-existing value `v` to `v + D` in `int64` arithmetic —
exactly `v + D` whenever that sum is representable. -/
theorem counter_inc_add_total_delta (c : Counter) (ops : List CounterOp)
    (h1 : -2 ^ 63 ≤ c.Value) (h2 : c.Value < 2 ^ 63) :
    (c.applyOps ops).Value = wrap64 (c.Value + (ops.map CounterOp.delta).sum) ∧
    (-2 ^ 63 ≤ c.Value + (ops.map CounterOp.delta).sum →
      c.Value + (ops.map CounterOp.delta).sum < 2 ^ 63 →
      (c.applyOps ops).Value = c.Value + (ops.map CounterOp.delta).sum) := by
  refine ⟨Counter.applyOps_value c ops h1 h2, fun hlo hhi => ?_⟩
  show (c.applyOps ops).value = c.Value + (ops.map CounterOp.delta).sum
  rw [Counter.applyOps_value c ops h1 h2]
  exact wrap64_fixed hlo hhi

/-- C7 witness: two `Inc` and two `Add` calls (one negative) on a fresh
counter land exactly on the total delta. -/
theorem counter_inc_add_total_delta_witness :
    ((NewCounter "requests" GoMap.empty).applyOps
        [CounterOp.inc, CounterOp.add 5, CounterOp.inc, CounterOp.add (-2)]).Value = 5 := by
  have h :=
    (counter_inc_add_total_delta (NewCounter "requests" GoMap.empty)
        [CounterOp.inc, CounterOp.add 5, CounterOp.inc, CounterOp.add (-2)]
        (by decide) (by decide)).2 (by decide) (by decide)
  simpa [NewCounter, Counter.Value, CounterOp.delta] using h

/-- C10: `Get` identifies two label-value lists exactly when their null-byte
joins coincide; the empty list and the singleton empty string share the key
`""` and hence share one instance, and an embedded null byte collides a list
with its differently-split variant. -/
theorem labelValuesKey_identifies (T : Type) (keys : List String) (f : List String → T)
    (vs vs2 : List String) :
    ((((newLabelRegistry T keys f).Get vs).2.Get vs2).1 = ((newLabelRegistry T keys f).Get vs).1
      ↔ labelValuesKey vs2 = labelValuesKey vs) ∧
    labelValuesKey ([] : List String) = "" ∧
    labelValuesKey [""] = "" ∧
    (((newLabelRegistry T keys f).Get []).2.Get [""]).1 =
      ((newLabelRegistry T keys f).Get []).1 ∧
    labelValuesKey ["a\x00b"] = labelValuesKey ["a", "b"] := by
  refine ⟨?_, by decide, by decide, ?_, by decide⟩
  · by_cases heq : labelValuesKey vs = labelValuesKey vs2
    · simp [LabelRegistry.Get, newLabelRegistry, findEntry, heq]
    · simp [LabelRegistry.Get, newLabelRegistry, findEntry, heq, Ne.symm heq]
  · have hk : labelValuesKey ([] : List String) = labelValuesKey [""] := by decide
    simp [LabelRegistry.Get, newLabelRegistry, findEntry, hk]

theorem tdiv_nonpos_of_neg (a b : Int) (ha : a < 0) (hb : 0 < b) : a.tdiv b ≤ 0 := by
  have h0 : (0 : Int) ≤ -a := by omega
  have h := Int.tdiv_eq_ediv h0 (le_of_lt hb)
  have hneg : a.tdiv b = -((-a).tdiv b) := by rw [← Int.neg_tdiv, neg_neg]
  have hnn : 0 ≤ (-a) / b := Int.ediv_nonneg h0 (le_of_lt hb)
  rw [hneg, h]
  omega

theorem max_zero_tdiv_eq_fdiv (a b : Int) (hb : 0 < b) :
    max 0 (a.tdiv b) = max 0 (a.fdiv b) := by
  rcases le_or_lt 0 a with ha | ha
  · rw [Int.tdiv_eq_ediv ha hb.le, Int.fdiv_eq_ediv _ hb.le]
  · have h1 : a.tdiv b ≤ 0 := tdiv_nonpos_of_neg a b ha hb
    have h2 : a.fdiv b ≤ 0 := by
      rw [Int.fdiv_eq_ediv _ hb.le]
      exact le_of_lt (Int.ediv_neg' ha hb)
    rw [max_def, max_def]
    split_ifs <;> omega

/-- When the `int64` computation `value - Offset + Step` stays in range,
`bucketForValue` is the clamp of the unwrapped truncated quotient. -/
theorem bucketForValue_no_overflow (d : StaticDistribution) (value : Int)
    (h1 : -2 ^ 63 ≤ value - d.Offset) (h2 : value - d.Offset < 2 ^ 63)
    (h3 : -2 ^ 63 ≤ value - d.Offset + d.Step) (h4 : value - d.Offset + d.Step < 2 ^ 63) :
    d.bucketForValue value =
      min (max 0 ((value - d.Offset + d.Step).tdiv d.Step)) (d.NumBuckets + 1) := by
  unfold StaticDistribution.bucketForValue
  rw [wrap64_fixed h1 h2, wrap64_fixed h3 h4]

/-- C3 counterexample: on a width-10, 3-bucket distribution, the value
`MaxInt64 = 2^63 - 1` lies at or above the last boundary `Step*NumBuckets`,
yet the Go computation `value - Offset + Step` wraps to a negative `int64`,
so `bucketForValue` clamps to underflow bucket 0 — not overflow bucket
`NumBuckets + 1 = 4`, which is what the claim's unwrapped floor formula
`clamp(0, NumBuckets+1, floor((value + Step)/Step))` yields. -/
theorem bucketForValue_wrap_counterexample :
    (NewStaticDistribution "lat" "ms" 10 3 GoMap.empty).Step *
        (NewStaticDistribution "lat" "ms" 10 3 GoMap.empty).NumBuckets ≤ 2 ^ 63 - 1 ∧
    (NewStaticDistribution "lat" "ms" 10 3 GoMap.empty).bucketForValue (2 ^ 63 - 1) = 0 ∧
    min (max 0 (((2 ^ 63 - 1 : Int) + 10).fdiv 10)) ((3 : Int) + 1) = 4 ∧
    (0 : Int) ≠ 3 + 1 := by
  refine ⟨by decide, ?_, by decide, by decide⟩
  show min (max 0 ((wrap64 (wrap64 ((2 ^ 63 - 1 : Int) - 0) + 10)).tdiv 10)) ((3 : Int) + 1) = 0
  have e1 : wrap64 ((2 ^ 63 - 1 : Int) - 0) = 2 ^ 63 - 1 := by unfold wrap64; omega
  rw [e1]
  have e2 : wrap64 ((2 ^ 63 - 1 : Int) + 10) = 9 - 2 ^ 63 := by unfold wrap64; omega
  rw [e2]
  have e3 : ((9 : Int) - 2 ^ 63).tdiv 10 ≤ 0 :=
    tdiv_nonpos_of_neg _ _ (by omega) (by omega)
  rw [max_def, min_def]
  split_ifs <;> omega

/-- C3 (amended): with offset 0, positive `int64` width `Step` and
`NumBuckets ≥ 0`, for every `int64` value whose computation
`value - Offset + Step` does not overflow, `bucketForValue` is the clamp of
`floor((value + Step) / Step)` into `[0, NumBuckets+1]` (the clamp at 0 makes
Go's truncating division agree with the floor); a value on boundary `Step*i`
with `Step*(i+1)` representable lands in the upper bucket `i+1`; every
negative `int64` value lands in underflow bucket 0; and every value at or
above the last boundary `Step*NumBuckets` with `value + Step` representable
lands in overflow bucket `NumBuckets+1`.  (When `value - Offset + Step`
overflows, the wrapped quotient is clamped like any other, as the
counterexample at `MaxInt64` shows.) -/
theorem bucketForValue_boundaries_amended (d : StaticDistribution)
    (hoff : d.Offset = 0) (hstep : 0 < d.Step) (hstepr : d.Step < 2 ^ 63)
    (hnb : 0 ≤ d.NumBuckets) :
    (∀ value : Int, -2 ^ 63 ≤ value → value + d.Step < 2 ^ 63 →
      d.bucketForValue value =
        min (max 0 ((value + d.Step).fdiv d.Step)) (d.NumBuckets + 1)) ∧
    (∀ i : Int, 0 ≤ i → i ≤ d.NumBuckets → d.Step * (i + 1) < 2 ^ 63 →
      d.bucketForValue (d.Step * i) = i + 1) ∧
    (∀ value : Int, -2 ^ 63 ≤ value → value < 0 → d.bucketForValue value = 0) ∧
    (∀ value : Int, d.Step * d.NumBuckets ≤ value → value + d.Step < 2 ^ 63 →
      d.bucketForValue value = d.NumBuckets + 1) := by
  refine ⟨?_, ?_, ?_, ?_⟩
  · intro value h1 h2
    rw [bucketForValue_no_overflow d value (by omega) (by omega) (by omega) (by omega)]
    rw [hoff, sub_zero, max_zero_tdiv_eq_fdiv _ _ hstep]
  · intro i h0 hN hi1
    have hprod : 0 ≤ d.Step * i := mul_nonneg hstep.le h0
    have hmul : d.Step * i + d.Step = d.Step * (i + 1) := by ring
    rw [bucketForValue_no_overflow d (d.Step * i) (by omega) (by omega) (by omega)
      (by omega)]
    rw [hoff, sub_zero]
    rw [hmul, Int.mul_tdiv_cancel_left _ (by omega)]
    rw [max_def, min_def]
    split_ifs <;> omega
  · intro value h1 hv
    rw [bucketForValue_no_overflow d value (by omega) (by omega) (by omega) (by omega)]
    rw [hoff, sub_zero]
    have hq : (value + d.Step).tdiv d.Step ≤ 0 := by
      rcases le_or_lt 0 (value + d.Step) with hpos | hneg
      · rw [Int.tdiv_eq_ediv hpos hstep.le,
          Int.ediv_eq_zero_of_lt hpos (by omega)]
      · exact tdiv_nonpos_of_neg _ _ hneg hstep
    rw [max_def, min_def]
    split_ifs <;> omega
  · intro value hv h2
    have hstepN : 0 ≤ d.Step * d.NumBuckets := mul_nonneg hstep.le hnb
    rw [bucketForValue_no_overflow d value (by omega) (by omega) (by omega) (by omega)]
    rw [hoff, sub_zero]
    have h0 : 0 ≤ value + d.Step := by omega
    have hmul : d.Step * d.NumBuckets + d.Step = (d.NumBuckets + 1) * d.Step := by ring
    have hq : d.NumBuckets + 1 ≤ (value + d.Step).tdiv d.Step := by
      rw [Int.tdiv_eq_ediv h0 hstep.le, Int.le_ediv_iff_mul_le hstep]
      omega
    rw [max_def, min_def]
    split_ifs <;> omega

/-- C3 witness: a width-10, 3-bucket distribution puts the boundary value 10
into bucket 2, the value −5 into underflow bucket 0, and the value 30 into
overflow bucket 4, all without `int64` overflow. -/
theorem bucketForValue_boundaries_amended_witness :
    (NewStaticDistribution "lat" "ms" 10 3 GoMap.empty).bucketForValue 10 = 2 ∧
    (NewStaticDistribution "lat" "ms" 10 3 GoMap.empty).bucketForValue (-5) = 0 ∧
    (NewStaticDistribution "lat" "ms" 10 3 GoMap.empty).bucketForValue 30 = 4 := by
  have h :=
    bucketForValue_boundaries_amended (NewStaticDistribution "lat" "ms" 10 3 GoMap.empty)
      rfl (by decide) (by decide) (by decide)
  refine ⟨?_, h.2.2.1 (-5) (by decide) (by decide), ?_⟩
  · have := h.2.1 1 (by decide) (by decide) (by decide)
    simpa [NewStaticDistribution] using this
  · have := h.2.2.2 30 (by decide) (by decide)
    simpa [NewStaticDistribution] using this

theorem bucketForValue_nonneg_le (d : StaticDistribution) (hnb : 0 ≤ d.NumBuckets)
    (value : Int) :
    0 ≤ d.bucketForValue value ∧ d.bucketForValue value ≤ d.NumBuckets + 1 := by
  unfold StaticDistribution.bucketForValue
  rw [max_def, min_def]
  split_ifs <;> omega

theorem bucketForValue_after_update (d : StaticDistribution) (v w : Int) :
    (d.Update v).bucketForValue w = d.bucketForValue w := rfl

theorem bucketForValue_after_clear (d : StaticDistribution) (w : Int) :
    d.GetAndClear.2.bucketForValue w = d.bucketForValue w := rfl

theorem update_buckets_length (d : StaticDistribution) (v : Int) :
    (d.Update v).value.Buckets.length = d.value.Buckets.length := by
  simp [StaticDistribution.Update]

theorem clear_buckets_length (d : StaticDistribution) :
    d.GetAndClear.2.value.Buckets.length = d.value.Buckets.length := by
  simp [StaticDistribution.GetAndClear]

/-- The states a `StaticDistribution` can reach from its constructor by
`Update` calls and `GetAndClear` resets. -/
inductive DistReachable (name unit : String) (step numBuckets : Int) (labels : GoMap) :
    StaticDistribution → Prop where
  | init :
      DistReachable name unit step numBuckets labels
        (NewStaticDistribution name unit step numBuckets labels)
  | update {d : StaticDistribution} (value : Int)
      (h : DistReachable name unit step numBuckets labels d) :
      DistReachable name unit step numBuckets labels (d.Update value)
  | clear {d : StaticDistribution}
      (h : DistReachable name unit step numBuckets labels d) :
      DistReachable name unit step numBuckets labels d.GetAndClear.2

/-- C9: in every reachable state of a distribution with positive width and a
nonnegative bucket count, the bucket slice keeps length `NumBuckets + 2`
(established by the constructor, preserved by `Update` and by `GetAndClear`'s
in-place clear) and the bucket index computed for any value lies in
`[0, NumBuckets+1]`, so the bucket increment in `Update` is in bounds. -/
theorem distribution_bucket_access_safe (name unit : String) (step numBuckets : Int)
    (labels : GoMap) (d : StaticDistribution)
    (hstep : 0 < step) (hnb : 0 ≤ numBuckets)
    (hreach : DistReachable name unit step numBuckets labels d) :
    d.value.Buckets.length = (numBuckets + 2).toNat ∧
    ∀ value : Int,
      0 ≤ d.bucketForValue value ∧
      d.bucketForValue value ≤ numBuckets + 1 ∧
      (d.bucketForValue value).toNat < d.value.Buckets.length := by
  have hfields : d.NumBuckets = numBuckets ∧
      d.value.Buckets.length = (numBuckets + 2).toNat := by
    induction hreach with
    | init => exact ⟨rfl, by simp [NewStaticDistribution]⟩
    | update value h ih => exact ⟨ih.1, by rw [update_buckets_length]; exact ih.2⟩
    | clear h ih => exact ⟨ih.1, by rw [clear_buckets_length]; exact ih.2⟩
  refine ⟨hfields.2, fun value => ?_⟩
  have hb := bucketForValue_nonneg_le d (by omega) value
  rw [hfields.1] at hb
  refine ⟨hb.1, hb.2, ?_⟩
  rw [hfields.2]
  omega

/-- C9 witness: after an update and a clear on a concrete 3-bucket
distribution, the bucket slice still has 5 slots and the index for value 42
is in bounds. -/
theorem distribution_bucket_access_safe_witness :
    ((NewStaticDistribution "d" "u" 10 3 GoMap.empty).Update
        7).GetAndClear.2.value.Buckets.length = (3 + 2 : Int).toNat ∧
    (((NewStaticDistribution "d" "u" 10 3 GoMap.empty).Update
        7).GetAndClear.2.bucketForValue 42).toNat < 5 := by
  have h :=
    distribution_bucket_access_safe "d" "u" 10 3 GoMap.empty _ (by decide) (by decide)
      (DistReachable.clear (DistReachable.update 7 DistReachable.init))
  refine ⟨h.1, ?_⟩
  have h42 := (h.2 42).2.2
  rw [h.1] at h42
  simpa using h42

theorem notify_foldl_aux (l : List (Option Unit)) :
    ∀ (i : Nat) (acc : List EmitAction),
      (∀ o ∈ l, o ≠ none) →
      (List.enumFrom i l).foldl
          (fun acc p =>
            match p.2 with
            | some _ => acc ++ [EmitAction.listener p.1]
            | none => acc)
          acc =
        acc ++ (List.range' i l.length).map EmitAction.listener := by
  induction l with
  | nil => intro i acc _; simp
  | cons o tl ih =>
    intro i acc hnn
    have ho : o ≠ none := hnn o (List.mem_cons_self o tl)
    obtain ⟨u, hu⟩ : ∃ u, o = some u := by
      cases o with
      | none => exact absurd rfl ho
      | some u => exact ⟨u, rfl⟩
    subst hu
    have htl : ∀ o ∈ tl, o ≠ none := fun o ho => hnn o (List.mem_cons_of_mem _ ho)
    show (List.enumFrom (i + 1) tl).foldl _ (acc ++ [EmitAction.listener i]) = _
    rw [ih (i + 1) (acc ++ [EmitAction.listener i]) htl]
    simp [List.range'_succ]

theorem notify_all_registered (listeners : List (Option Unit))
    (hnn : ∀ o ∈ listeners, o ≠ none) :
    notifyBeforeEmitListeners listeners =
      (List.range listeners.length).map EmitAction.listener := by
  unfold notifyBeforeEmitListeners
  have henum : listeners.enum = List.enumFrom 0 listeners := rfl
  rw [henum, notify_foldl_aux listeners 0 [] hnn, List.range_eq_range']
  simp

/-- C8: with only non-nil listeners registered, every scheduler tick produces
exactly the block "each registered listener once, in registration order, then
the exporter"; the run over `n` ticks followed by cancellation is `n` such
blocks, and from the cancellation event on, no listener and no exporter
action occurs — in particular a run that starts with the cancellation event
produces no actions at all. -/
theorem scheduler_tick_order (listeners : List (Option Unit)) (n : Nat)
    (rest : List SchedEvent) (hnn : ∀ o ∈ listeners, o ≠ none) :
    schedulerRun listeners
        (List.replicate n SchedEvent.tick ++ SchedEvent.cancel :: rest) =
      (List.replicate n
        ((List.range listeners.length).map EmitAction.listener ++
          [EmitAction.exporter])).flatten ∧
    schedulerRun listeners (SchedEvent.cancel :: rest) = [] := by
  refine ⟨?_, rfl⟩
  induction n with
  | zero => simp [schedulerRun]
  | succ m ih =>
    rw [List.replicate_succ, List.cons_append]
    show notifyBeforeEmitListeners listeners ++ EmitAction.exporter :: _ = _
    rw [ih, notify_all_registered listeners hnn, List.replicate_succ, List.flatten_cons]
    simp

/-- C8 witness: two listeners, one tick, then cancellation with a stray tick
event after it: the run is listener 0, listener 1, exporter, and nothing more. -/
theorem scheduler_tick_order_witness :
    schedulerRun [some (), some ()]
        (List.replicate 1 SchedEvent.tick ++ SchedEvent.cancel :: [SchedEvent.tick]) =
      (List.replicate 1
        ((List.range 2).map EmitAction.listener ++ [EmitAction.exporter])).flatten ∧
    schedulerRun [some (), some ()] (SchedEvent.cancel :: [SchedEvent.tick]) = [] := by
  have h :=
    scheduler_tick_order [some (), some ()] 1 [SchedEvent.tick] (by decide)
  exact ⟨h.1, h.2⟩

theorem sum_set_incr (l : List Int) (i : Nat) (h : i < l.length) :
    (l.set i (l.getD i 0 + 1)).sum = l.sum + 1 := by
  induction l generalizing i with
  | nil => simp at h
  | cons x tl ih =>
    cases i with
    | zero => simp [List.getD]; ring
    | succ j =>
      have hj : j < tl.length := by simpa using h
      simp only [List.set, List.getD_cons_succ, List.sum_cons]
      rw [ih j hj]
      ring

theorem update_numSamples (d : StaticDistribution) (v : Int) :
    (d.Update v).value.NumSamples = d.value.NumSamples + 1 := rfl

theorem update_buckets (d : StaticDistribution) (v : Int) :
    (d.Update v).value.Buckets =
      d.value.Buckets.set (d.bucketForValue v).toNat
        (d.value.Buckets.getD (d.bucketForValue v).toNat 0 + 1) := rfl

theorem update_numBuckets (d : StaticDistribution) (v : Int) :
    (d.Update v).NumBuckets = d.NumBuckets := rfl

theorem update_bucket_sum (d : StaticDistribution) (v : Int)
    (hlen : d.value.Buckets.length = (d.NumBuckets + 2).toNat)
    (hnb : 0 ≤ d.NumBuckets) :
    (d.Update v).value.Buckets.sum = d.value.Buckets.sum + 1 := by
  rw [update_buckets]
  apply sum_set_incr
  have hb := bucketForValue_nonneg_le d hnb v
  omega

theorem foldl_update_counts (vs : List Int) : ∀ d : StaticDistribution,
    d.value.Buckets.length = (d.NumBuckets + 2).toNat → 0 ≤ d.NumBuckets →
    (vs.foldl StaticDistribution.Update d).value.NumSamples =
        d.value.NumSamples + vs.length ∧
    (vs.foldl StaticDistribution.Update d).value.Buckets.sum =
        d.value.Buckets.sum + vs.length ∧
    (vs.foldl StaticDistribution.Update d).value.Buckets.length =
        d.value.Buckets.length ∧
    (vs.foldl StaticDistribution.Update d).NumBuckets = d.NumBuckets := by
  induction vs with
  | nil => intro d _ _; simp
  | cons v tl ih =>
    intro d hlen hnb
    have hlen2 : (d.Update v).value.Buckets.length = ((d.Update v).NumBuckets + 2).toNat := by
      rw [update_numBuckets, update_buckets_length, hlen]
    have h := ih (d.Update v) hlen2 (by rw [update_numBuckets]; exact hnb)
    refine ⟨?_, ?_, ?_, ?_⟩
    · rw [List.foldl_cons, h.1, update_numSamples]
      simp only [List.length_cons]
      push_cast
      ring
    · rw [List.foldl_cons, h.2.1, update_bucket_sum d v hlen hnb]
      simp only [List.length_cons]
      push_cast
      ring
    · rw [List.foldl_cons, h.2.2.1, update_buckets_length]
    · rw [List.foldl_cons, h.2.2.2, update_numBuckets]

/-- C2: starting from a state with zero samples and zero bucket counts (the
constructor's state, or the state `GetAndClear` leaves behind), `k` `Update`
calls followed by `GetAndClear` yield a snapshot that is exactly the
accumulated `{buckets, count, mean, sum_sq_dev}`, with `NumSamples = k` and
bucket counts summing to `k`; afterwards all four fields are zero, so an
immediately following `GetAndClear` returns an all-zero snapshot. -/
theorem distribution_conservation (d0 : StaticDistribution) (vs : List Int)
    (hlen : d0.value.Buckets.length = (d0.NumBuckets + 2).toNat)
    (hnb : 0 ≤ d0.NumBuckets) (hstep : 0 < d0.Step)
    (hns : d0.value.NumSamples = 0) (hsum : d0.value.Buckets.sum = 0) :
    (vs.foldl StaticDistribution.Update d0).GetAndClear.1 =
        (vs.foldl StaticDistribution.Update d0).value ∧
    (vs.foldl StaticDistribution.Update d0).GetAndClear.1.NumSamples = vs.length ∧
    (vs.foldl StaticDistribution.Update d0).GetAndClear.1.Buckets.sum = vs.length ∧
    (vs.foldl StaticDistribution.Update d0).GetAndClear.2.value.NumSamples = 0 ∧
    (vs.foldl StaticDistribution.Update d0).GetAndClear.2.value.Mean = 0 ∧
    (vs.foldl StaticDistribution.Update d0).GetAndClear.2.value.SumOfSquaredDeviation = 0 ∧
    (vs.foldl StaticDistribution.Update d0).GetAndClear.2.value.Buckets =
        List.replicate (vs.foldl StaticDistribution.Update d0).value.Buckets.length 0 ∧
    (vs.foldl StaticDistribution.Update d0).GetAndClear.2.GetAndClear.1 =
        { Buckets :=
            List.replicate (vs.foldl StaticDistribution.Update d0).value.Buckets.length 0,
          NumSamples := 0, Mean := 0, SumOfSquaredDeviation := 0 } := by
  have h := foldl_update_counts vs d0 hlen hnb
  refine ⟨rfl, ?_, ?_, rfl, rfl, rfl, rfl, ?_⟩
  · show (vs.foldl StaticDistribution.Update d0).value.NumSamples = (vs.length : Int)
    rw [h.1, hns]
    ring
  · show (vs.foldl StaticDistribution.Update d0).value.Buckets.sum = (vs.length : Int)
    rw [h.2.1, hsum]
    ring
  · show ((vs.foldl StaticDistribution.Update d0).GetAndClear.2.value, _).1 = _
    simp [StaticDistribution.GetAndClear]

/-- C2 witness: two updates on a fresh 3-bucket distribution give a snapshot
with 2 samples and bucket sum 2, and the immediate second `GetAndClear` is
all zero. -/
theorem distribution_conservation_witness :
    (([5, 25] : List Int).foldl StaticDistribution.Update
        (NewStaticDistribution "d" "u" 10 3 GoMap.empty)).GetAndClear.1.NumSamples = 2 ∧
    (([5, 25] : List Int).foldl StaticDistribution.Update
        (NewStaticDistribution "d" "u" 10 3 GoMap.empty)).GetAndClear.2.value.NumSamples = 0 := by
  have h :=
    distribution_conservation (NewStaticDistribution "d" "u" 10 3 GoMap.empty)
      [5, 25] (by simp [NewStaticDistribution]) (by decide) (by decide) rfl
      (by simp [NewStaticDistribution])
  exact ⟨by rw [h.2.1]; decide, h.2.2.2.1⟩

/-- Sum of a batch of samples, as rationals. -/
def qsum (vs : List Int) : ℚ := (vs.map fun v => ((v : Int) : ℚ)).sum

/-- Sum of squares of a batch of samples, as rationals. -/
def qsumsq (vs : List Int) : ℚ := (vs.map fun v => ((v : Int) : ℚ) ^ 2).sum

/-- Naive two-pass mean of a batch. -/
def naiveMean (vs : List Int) : ℚ := qsum vs / (vs.length : ℚ)

/-- Naive two-pass sum of squared deviations from the mean. -/
def naiveSumSqDev (vs : List Int) : ℚ :=
  (vs.map fun v => (((v : Int) : ℚ) - naiveMean vs) ^ 2).sum

theorem update_mean (d : StaticDistribution) (v : Int) :
    (d.Update v).value.Mean =
      d.value.Mean +
        (((v : Int) : ℚ) - d.value.Mean) / (((d.value.NumSamples + 1 : Int)) : ℚ) := rfl

theorem update_ssd (d : StaticDistribution) (v : Int) :
    (d.Update v).value.SumOfSquaredDeviation =
      d.value.SumOfSquaredDeviation +
        (((v : Int) : ℚ) - d.value.Mean) * (((v : Int) : ℚ) - (d.Update v).value.Mean) := rfl

theorem welford_moments (vs : List Int) (d : StaticDistribution)
    (hns : d.value.NumSamples = 0) (hmean : d.value.Mean = 0)
    (hssd : d.value.SumOfSquaredDeviation = 0) :
    (vs.foldl StaticDistribution.Update d).value.NumSamples = vs.length ∧
    (vs.foldl StaticDistribution.Update d).value.Mean = qsum vs / (vs.length : ℚ) ∧
    (vs.foldl StaticDistribution.Update d).value.SumOfSquaredDeviation =
      qsumsq vs - qsum vs ^ 2 / (vs.length : ℚ) := by
  induction vs using List.reverseRecOn with
  | nil => simp [hns, hmean, hssd, qsum, qsumsq]
  | append_singleton l v ih =>
    obtain ⟨ihn, ihm, ihs⟩ := ih
    rw [List.foldl_append]
    simp only [List.foldl_cons, List.foldl_nil]
    have hnum : ((l.foldl StaticDistribution.Update d).Update v).value.NumSamples =
        (l.length : Int) + 1 := by
      rw [update_numSamples, ihn]
    have hmean2 : ((l.foldl StaticDistribution.Update d).Update v).value.Mean =
        (qsum l + ((v : Int) : ℚ)) / ((l.length : ℚ) + 1) := by
      rw [update_mean, ihm, ihn]
      push_cast
      rcases Nat.eq_zero_or_pos l.length with h0 | hpos
      · have hl : l = [] := List.length_eq_zero.mp h0
        subst hl
        simp [qsum]
      · have hq : (l.length : ℚ) ≠ 0 := (Nat.cast_pos.mpr hpos).ne'
        have hq1 : (l.length : ℚ) + 1 ≠ 0 := by positivity
        field_simp
        ring
    have hssd2 :
        ((l.foldl StaticDistribution.Update d).Update v).value.SumOfSquaredDeviation =
          qsumsq l + ((v : Int) : ℚ) ^ 2 -
            (qsum l + ((v : Int) : ℚ)) ^ 2 / ((l.length : ℚ) + 1) := by
      rw [update_ssd, hmean2, ihs, ihm]
      rcases Nat.eq_zero_or_pos l.length with h0 | hpos
      · have hl : l = [] := List.length_eq_zero.mp h0
        subst hl
        simp [qsum, qsumsq]
      · have hq : (l.length : ℚ) ≠ 0 := (Nat.cast_pos.mpr hpos).ne'
        have hq1 : (l.length : ℚ) + 1 ≠ 0 := by positivity
        field_simp
        ring
    refine ⟨?_, ?_, ?_⟩
    · rw [hnum]
      simp
    · rw [hmean2]
      simp only [qsum, List.map_append, List.sum_append, List.map_cons, List.map_nil,
        List.sum_cons, List.sum_nil, List.length_append, List.length_cons, List.length_nil]
      push_cast
      ring
    · rw [hssd2]
      simp only [qsum, qsumsq, List.map_append, List.sum_append, List.map_cons, List.map_nil,
        List.sum_cons, List.sum_nil, List.length_append, List.length_cons, List.length_nil]
      push_cast
      ring

theorem sum_sq_dev_expand (μ : ℚ) (vs : List Int) :
    (vs.map fun v => (((v : Int) : ℚ) - μ) ^ 2).sum =
      qsumsq vs - 2 * μ * qsum vs + vs.length * μ ^ 2 := by
  induction vs with
  | nil => simp [qsum, qsumsq]
  | cons x tl ih =>
    simp only [qsum, qsumsq, List.map_cons, List.sum_cons, List.length_cons] at ih ⊢
    rw [ih]
    push_cast
    ring

/-- C4: feeding a finite batch of values one at a time through `Update`, the
incrementally maintained `Mean` and `SumOfSquaredDeviation` of Welford's
recurrence (`count += 1; delta = value - mean; mean += delta/count;
sum_sq_dev += delta * (value - mean)`) equal, exactly, the naive two-pass mean
and two-pass sum of squared deviations of the batch (the embedding computes in
exact arithmetic, so agreement is exact rather than within tolerance). -/
theorem welford_matches_two_pass (d : StaticDistribution) (vs : List Int)
    (hns : d.value.NumSamples = 0) (hmean : d.value.Mean = 0)
    (hssd : d.value.SumOfSquaredDeviation = 0) :
    (vs.foldl StaticDistribution.Update d).value.Mean = naiveMean vs ∧
    (vs.foldl StaticDistribution.Update d).value.SumOfSquaredDeviation =
      naiveSumSqDev vs := by
  obtain ⟨hn, hm, hs⟩ := welford_moments vs d hns hmean hssd
  refine ⟨hm, ?_⟩
  rw [hs, naiveSumSqDev, sum_sq_dev_expand, naiveMean]
  rcases Nat.eq_zero_or_pos vs.length with h0 | hpos
  · have hl : vs = [] := List.length_eq_zero.mp h0
    subst hl
    simp [qsum, qsumsq]
  · have hq : (vs.length : ℚ) ≠ 0 := (Nat.cast_pos.mpr hpos).ne'
    field_simp
    ring

/-- C4 witness: the batch `[2, 4]` on a fresh distribution ends with
incremental mean 3 and sum of squared deviations 2, matching the two-pass
values. -/
theorem welford_matches_two_pass_witness :
    (([2, 4] : List Int).foldl StaticDistribution.Update
        (NewStaticDistribution "d" "u" 10 3 GoMap.empty)).value.Mean = 3 ∧
    (([2, 4] : List Int).foldl StaticDistribution.Update
        (NewStaticDistribution "d" "u" 10 3 GoMap.empty)).value.SumOfSquaredDeviation = 2 := by
  have h :=
    welford_matches_two_pass (NewStaticDistribution "d" "u" 10 3 GoMap.empty)
      [2, 4] rfl rfl rfl
  constructor
  · rw [h.1]
    norm_num [naiveMean, qsum]
  · rw [h.2]
    norm_num [naiveSumSqDev, naiveMean, qsum]

/-- The loop body of `labelValuesToMap` as a recursion over the enumerated
key list (same function as the `foldl` in the definition). -/
def lvmAux (values : List String) (acc : GoMap) : List (Nat × String) → GoMap
  | [] => acc
  | p :: rest =>
    lvmAux values
      (if p.1 < values.length then acc.insert p.2 (values.getD p.1 "") else acc) rest

theorem lvmAux_eq_foldl (values : List String) :
    ∀ (l : List (Nat × String)) (acc : GoMap),
      lvmAux values acc l =
        l.foldl
          (fun result p =>
            if p.1 < values.length then result.insert p.2 (values.getD p.1 "") else result)
          acc := by
  intro l
  induction l with
  | nil => intro acc; rfl
  | cons p rest ih => intro acc; rw [lvmAux, List.foldl_cons, ih]

theorem labelValuesToMap_eq_lvmAux (keys values : List String) :
    labelValuesToMap keys values = lvmAux values GoMap.empty (List.enumFrom 0 keys) := by
  rw [labelValuesToMap, lvmAux_eq_foldl]
  rfl

theorem lvmAux_support (values : List String) (keys : List String) :
    ∀ (i : Nat) (acc : GoMap) (k : String),
      lvmAux values acc (List.enumFrom i keys) k ≠ none ↔
        (acc k ≠ none ∨
          ∃ j, j < keys.length ∧ i + j < values.length ∧ keys.getD j "" = k) := by
  induction keys with
  | nil =>
    intro i acc k
    simp [lvmAux]
  | cons k0 tl ih =>
    intro i acc k
    show lvmAux values _ (List.enumFrom (i + 1) tl) k ≠ none ↔ _
    rw [ih (i + 1)]
    constructor
    · rintro (hacc | ⟨j, hj1, hj2, hj3⟩)
      · by_cases hlt : i < values.length
        · simp only [if_pos hlt, GoMap.insert] at hacc
          by_cases hk : k = k0
          · exact Or.inr ⟨0, by simp, by omega, by simpa using hk.symm⟩
          · simp only [if_neg hk] at hacc
            exact Or.inl hacc
        · simp only [if_neg hlt] at hacc
          exact Or.inl hacc
      · exact Or.inr ⟨j + 1, by simpa using hj1, by omega, by simpa using hj3⟩
    · rintro (hacc | ⟨j, hj1, hj2, hj3⟩)
      · by_cases hlt : i < values.length
        · simp only [if_pos hlt, GoMap.insert]
          by_cases hk : k = k0
          · simp [hk]
          · simp only [if_neg hk]
            exact Or.inl hacc
        · simp only [if_neg hlt]
          exact Or.inl hacc
      · cases j with
        | zero =>
          simp only [List.getD_cons_zero] at hj3
          have hlt : i < values.length := by omega
          refine Or.inl ?_
          simp [if_pos hlt, GoMap.insert, hj3]
        | succ m =>
          refine Or.inr ⟨m, by simpa using hj1, by omega, by simpa using hj3⟩

theorem lvmAux_not_mem (values : List String) (keys : List String) :
    ∀ (i : Nat) (acc : GoMap) (k : String),
      (∀ key ∈ keys, key ≠ k) →
      lvmAux values acc (List.enumFrom i keys) k = acc k := by
  induction keys with
  | nil => intro i acc k _; rfl
  | cons k0 tl ih =>
    intro i acc k hk
    show lvmAux values _ (List.enumFrom (i + 1) tl) k = acc k
    rw [ih (i + 1) _ k fun key hmem => hk key (List.mem_cons_of_mem _ hmem)]
    have hne : k ≠ k0 := fun h => hk k0 (List.mem_cons_self _ _) h.symm
    by_cases hlt : i < values.length
    · simp [if_pos hlt, GoMap.insert, hne]
    · simp [if_neg hlt]

theorem lvmAux_nodup_get (values : List String) (keys : List String) :
    ∀ (i : Nat) (acc : GoMap), keys.Nodup →
      ∀ j, j < keys.length → i + j < values.length →
        lvmAux values acc (List.enumFrom i keys) (keys.getD j "") =
          some (values.getD (i + j) "") := by
  induction keys with
  | nil => intro i acc _ j hj; simp at hj
  | cons k0 tl ih =>
    intro i acc hnd j hj hv
    have hnd0 : k0 ∉ tl := (List.nodup_cons.mp hnd).1
    have hndtl : tl.Nodup := (List.nodup_cons.mp hnd).2
    cases j with
    | zero =>
      show lvmAux values _ (List.enumFrom (i + 1) tl) k0 = some (values.getD (i + 0) "")
      rw [lvmAux_not_mem values tl (i + 1) _ k0
        fun key hmem heq => hnd0 (heq ▸ hmem)]
      have hlt : i < values.length := by omega
      simp [if_pos hlt, GoMap.insert]
    | succ m =>
      show lvmAux values _ (List.enumFrom (i + 1) tl) (tl.getD m "") = _
      have := ih (i + 1) (if i < values.length then acc.insert k0 (values.getD i "") else acc)
        hndtl m (by simpa using hj) (by omega)
      have harith : i + 1 + m = i + (m + 1) := by omega
      rw [harith] at this
      exact this

theorem getD_take (l : List String) :
    ∀ (m i : Nat), i < m → (l.take m).getD i "" = l.getD i "" := by
  induction l with
  | nil => intro m i _; simp
  | cons x tl ih =>
    intro m i him
    cases m with
    | zero => omega
    | succ m2 =>
      cases i with
      | zero => simp
      | succ j => simpa using ih m2 j (by omega)

theorem mem_take_iff (keys : List String) :
    ∀ (n : Nat) (k : String),
      k ∈ keys.take n ↔ ∃ j, j < keys.length ∧ j < n ∧ keys.getD j "" = k := by
  induction keys with
  | nil => intro n k; simp
  | cons k0 tl ih =>
    intro n k
    cases n with
    | zero => simp
    | succ m =>
      simp only [List.take_succ_cons, List.mem_cons, ih m k]
      constructor
      · rintro (rfl | ⟨j, hj1, hj2, hj3⟩)
        · exact ⟨0, by simp, by omega, by simp⟩
        · exact ⟨j + 1, by simpa using hj1, by omega, by simpa using hj3⟩
      · rintro ⟨j, hj1, hj2, hj3⟩
        cases j with
        | zero => exact Or.inl (by simpa using hj3.symm)
        | succ m2 =>
          exact Or.inr ⟨m2, by simpa using hj1, by omega, by simpa using hj3⟩

theorem lvmAux_take (values : List String) (m : Nat) (keys : List (Nat × String)) :
    ∀ acc, (∀ p ∈ keys, p.1 < m) →
      lvmAux values acc keys = lvmAux (values.take m) acc keys := by
  induction keys with
  | nil => intro acc _; rfl
  | cons p rest ih =>
    intro acc hlt
    have hp : p.1 < m := hlt p (List.mem_cons_self _ _)
    rw [lvmAux, lvmAux, ih _ fun q hq => hlt q (List.mem_cons_of_mem _ hq)]
    by_cases hv : p.1 < values.length
    · have hv2 : p.1 < (values.take m).length := by
        simp only [List.length_take]
        omega
      rw [if_pos hv, if_pos hv2, getD_take values m p.1 hp]
    · have hv2 : ¬ p.1 < (values.take m).length := by
        simp only [List.length_take]
        omega
      rw [if_neg hv, if_neg hv2]

theorem enumFrom_fst_lt (keys : List String) :
    ∀ (i : Nat) (p : Nat × String), p ∈ List.enumFrom i keys → p.1 < i + keys.length := by
  induction keys with
  | nil => intro i p hp; simp [List.enumFrom] at hp
  | cons k0 tl ih =>
    intro i p hp
    rcases List.mem_cons.mp hp with rfl | hmem
    · simp
    · have := ih (i + 1) p hmem
      simp only [List.length_cons]
      omega

/-- C5: converting label values to a key-to-value map is total and silently
permissive: a key is bound exactly when it occurs among the first
`len(values)` keys (so with fewer values than keys, keys past the value count
are absent), only the first `len(keys)` values are ever consulted (extra
values are discarded without effect), and — for distinct keys — the key at
index `i < min(len(keys), len(values))` is bound to the value at index `i`.
No case returns an error: the function is total by construction. -/
theorem labelValuesToMap_permissive (keys values : List String) :
    (∀ k, labelValuesToMap keys values k ≠ none ↔ k ∈ keys.take values.length) ∧
    labelValuesToMap keys values = labelValuesToMap keys (values.take keys.length) ∧
    (keys.Nodup → ∀ j, j < keys.length → j < values.length →
      labelValuesToMap keys values (keys.getD j "") = some (values.getD j "")) := by
  refine ⟨?_, ?_, ?_⟩
  · intro k
    rw [labelValuesToMap_eq_lvmAux, lvmAux_support, mem_take_iff]
    simp only [GoMap.empty]
    constructor
    · rintro (h | ⟨j, hj1, hj2, hj3⟩)
      · exact absurd rfl h
      · exact ⟨j, hj1, by omega, hj3⟩
    · rintro ⟨j, hj1, hj2, hj3⟩
      exact Or.inr ⟨j, hj1, by omega, hj3⟩
  · rw [labelValuesToMap_eq_lvmAux, labelValuesToMap_eq_lvmAux,
      lvmAux_take values keys.length _ _ fun p hp => by
        simpa using enumFrom_fst_lt keys 0 p hp]
  · intro hnd j hj hv
    rw [labelValuesToMap_eq_lvmAux]
    have := lvmAux_nodup_get values keys 0 GoMap.empty hnd j (by omega) (by omega)
    simpa using this

/-- C5 witness: with keys `["a","b"]` and one value, only `"a"` is bound; with
keys `["a","b"]` and three values, the map equals the one built from the first
two values; positional binding holds at index 0. -/
theorem labelValuesToMap_permissive_witness :
    (labelValuesToMap ["a", "b"] ["x"] "b" ≠ none ↔ "b" ∈ (["a", "b"] : List String).take 1) ∧
    labelValuesToMap ["a", "b"] ["x", "y", "z"] =
      labelValuesToMap ["a", "b"] ((["x", "y", "z"] : List String).take 2) ∧
    labelValuesToMap ["a", "b"] ["x"] "a" = some "x" := by
  have h := labelValuesToMap_permissive ["a", "b"] ["x"]
  have h2 := labelValuesToMap_permissive ["a", "b"] ["x", "y", "z"]
  refine ⟨h.1 "b", h2.2.1, ?_⟩
  have := h.2.2 (by decide) 0 (by decide) (by decide)
  simpa using this

/-- For every map, copying it over the empty map changes no lookup. -/
theorem copyFrom_empty (s : GoMap) (k : String) : (GoMap.empty.copyFrom s) k = s k := by
  unfold GoMap.copyFrom GoMap.empty
  cases s k <;> rfl

theorem mergedFactoryLabels_lookup (s : GoMap) (ks vs : List String) (k : String) :
    mergedFactoryLabels s ks vs k =
      match labelValuesToMap ks vs k with
      | some v => some v
      | none => s k := by
  unfold mergedFactoryLabels GoMap.copyFrom
  cases labelValuesToMap ks vs k
  · exact copyFrom_empty s k
  · rfl

/-- C6: for each dynamic facade (counter, gauge, distribution) the instance
the registry factory installs on first use of a label-value list carries the
merged label map: on any key the dynamic key-to-value mapping binds, its value
wins; on any key it leaves unbound, the static label (if any) is preserved. -/
theorem dynamic_factory_label_merge (name unit : String) (step numBuckets : Int)
    (s : GoMap) (ks vs : List String) (k : String) :
    (∃ inst : StaticCounter,
      (((NewDynamicCounter name s ks).registry.Get vs).2).instances[
          (((NewDynamicCounter name s ks).registry.Get vs).1)]? = some inst ∧
      inst.Name = name ∧
      inst.Labels k =
        (match labelValuesToMap ks vs k with
          | some v => some v
          | none => s k)) ∧
    (∃ inst : StaticGauge,
      (((NewDynamicGauge name s ks).registry.Get vs).2).instances[
          (((NewDynamicGauge name s ks).registry.Get vs).1)]? = some inst ∧
      inst.Name = name ∧
      inst.Labels k =
        (match labelValuesToMap ks vs k with
          | some v => some v
          | none => s k)) ∧
    (∃ inst : StaticDistribution,
      (((NewDynamicDistribution name unit step numBuckets s ks).registry.Get vs).2).instances[
          (((NewDynamicDistribution name unit step numBuckets s ks).registry.Get vs).1)]? =
        some inst ∧
      inst.Name = name ∧
      inst.Labels k =
        (match labelValuesToMap ks vs k with
          | some v => some v
          | none => s k)) := by
  refine ⟨?_, ?_, ?_⟩
  · refine ⟨NewStaticCounter name (mergedFactoryLabels s ks vs), ?_, rfl, ?_⟩
    · rw [LabelRegistry.Get_fresh (NewDynamicCounter name s ks).registry vs rfl]
      simp [NewDynamicCounter, newLabelRegistry]
    · exact mergedFactoryLabels_lookup s ks vs k
  · refine ⟨NewStaticGauge name (mergedFactoryLabels s ks vs), ?_, rfl, ?_⟩
    · rw [LabelRegistry.Get_fresh (NewDynamicGauge name s ks).registry vs rfl]
      simp [NewDynamicGauge, newLabelRegistry]
    · exact mergedFactoryLabels_lookup s ks vs k
  · refine ⟨NewStaticDistribution name unit step numBuckets (mergedFactoryLabels s ks vs), ?_, rfl, ?_⟩
    · rw [LabelRegistry.Get_fresh
        (NewDynamicDistribution name unit step numBuckets s ks).registry vs rfl]
      simp [NewDynamicDistribution, newLabelRegistry]
    · exact mergedFactoryLabels_lookup s ks vs k

/-- C6 witness: with a static label map binding "env" and "status", and
dynamic keys ["status"], the installed counter instance overrides "status"
with the dynamic value and keeps the static "env". -/
theorem dynamic_factory_label_merge_witness :
    (∃ inst : StaticCounter,
      (((NewDynamicCounter "req" ((GoMap.empty.insert "env" "prod").insert "status" "unknown")
          ["status"]).registry.Get ["200"]).2).instances[
        (((NewDynamicCounter "req" ((GoMap.empty.insert "env" "prod").insert "status" "unknown")
          ["status"]).registry.Get ["200"]).1)]? = some inst ∧
      inst.Name = "req" ∧
      inst.Labels "status" =
        (match labelValuesToMap ["status"] ["200"] "status" with
          | some v => some v
          | none => ((GoMap.empty.insert "env" "prod").insert "status" "unknown") "status")) := by
  exact (dynamic_factory_label_merge "req" "u" 1 1
    ((GoMap.empty.insert "env" "prod").insert "status" "unknown") ["status"] ["200"] "status").1

end GcpMetrics
